import Mathlib

/-!
Verification of the chunking / grouping / embedding-fetch pipeline in
`src/genaikit/nlp/processors.py` (class `TextProcessor` and the module-level
helpers `naive_split`, `naive_token_splitter`).

The external collaborators are abstracted as function parameters, exactly as
the source only observes them:
* the tokenizer (`tiktoken` encoding) is a function `encLen : String → Nat`
  giving the number of tokens of a string — the code only ever takes
  `len(encoding.encode(...))`;
* the NLP similarity oracle is a function `sim : String → String → ℚ`
  together with a threshold `θ : ℚ` — the code only ever compares
  `docs[i].similarity(docs[j]) >= threshold`, and `doc.text` round-trips to
  the chunk string it was parsed from;
* the embedding service is a function `f : String → α` from a chunk text to
  the returned vector (the claims fix the service's responses).
-/

namespace Genaikit

/-- Python `text.split(". ")` at the character level: left-to-right,
non-overlapping occurrences of the two-character separator `". "` split the
text; `acc` is the fragment accumulated since the last separator. -/
def splitDotSpace (acc : List Char) : List Char → List (List Char)
  | '.' :: ' ' :: cs => acc :: splitDotSpace [] cs
  | c :: cs => splitDotSpace (acc ++ [c]) cs
  | [] => [acc]

/-- `naive_split` (processors.py lines 197-214): split the text on the literal
separator `". "` and keep only fragments strictly longer than
`minimal_length`. -/
def naive_split (text : String) (minimalLength : Nat) : List String :=
  ((splitDotSpace [] text.data).map (fun cs => String.mk cs)).filter
    (fun s => minimalLength < s.length)

/-- Loop state of `TextProcessor.to_chunks` (lines 39-42): emitted chunk
texts, their token counts, the running chunk's sentences and its running
token total. -/
structure ChunkState where
  chunks : List String
  tokens : List Nat
  currentChunk : List String
  currentTokens : Nat
deriving DecidableEq, Repr

/-- One iteration of the `for sentence in self.sequences` loop of
`TextProcessor.to_chunks` (lines 45-55).  `encLen (sentence ++ " ")` is
`len(encoding.encode(sentence + ' '))`. -/
def to_chunks_step (encLen : String → Nat) (maxTokens : Nat)
    (st : ChunkState) (sentence : String) : ChunkState :=
  let encodedLen := encLen (sentence ++ " ")
  if st.currentTokens + encodedLen ≤ maxTokens then
    { st with currentChunk := st.currentChunk ++ [sentence],
              currentTokens := st.currentTokens + encodedLen }
  else
    { chunks := st.chunks ++ [String.intercalate " " st.currentChunk],
      tokens := st.tokens ++ [st.currentTokens],
      currentChunk := [sentence],
      currentTokens := encodedLen }

/-- `TextProcessor.to_chunks` (lines 29-62) on an already split sentence
list `sequences`: fold the loop body over the sentences, then flush the
running chunk if it is non-empty (`if current_chunk:`), returning the pair
`(chunks, tokens)` that the method stores in `self.chunks` / `self.n_tokens`. -/
def to_chunks (encLen : String → Nat) (maxTokens : Nat)
    (sequences : List String) : List String × List Nat :=
  let st := sequences.foldl (to_chunks_step encLen maxTokens) ⟨[], [], [], 0⟩
  if st.currentChunk.isEmpty then (st.chunks, st.tokens)
  else (st.chunks ++ [String.intercalate " " st.currentChunk],
        st.tokens ++ [st.currentTokens])

/-- Instrumented loop state for `to_chunks`: identical to `ChunkState`, but
each emitted chunk is recorded as its member sentence list instead of the
already-joined string, so that statements about chunk membership can be
made.  `to_chunks_members_join` below proves the correspondence. -/
structure ChunkStateM where
  chunks : List (List String)
  tokens : List Nat
  currentChunk : List String
  currentTokens : Nat
deriving DecidableEq, Repr

/-- Member-tracking version of `to_chunks_step`: same branches, but the
closed chunk is appended as its sentence list. -/
def to_chunks_members_step (encLen : String → Nat) (maxTokens : Nat)
    (st : ChunkStateM) (sentence : String) : ChunkStateM :=
  let encodedLen := encLen (sentence ++ " ")
  if st.currentTokens + encodedLen ≤ maxTokens then
    { st with currentChunk := st.currentChunk ++ [sentence],
              currentTokens := st.currentTokens + encodedLen }
  else
    { chunks := st.chunks ++ [st.currentChunk],
      tokens := st.tokens ++ [st.currentTokens],
      currentChunk := [sentence],
      currentTokens := encodedLen }

/-- Member-tracking version of `to_chunks`: returns each emitted chunk as
its list of member sentences, with the same token counts. -/
def to_chunks_members (encLen : String → Nat) (maxTokens : Nat)
    (sequences : List String) : List (List String) × List Nat :=
  let st := sequences.foldl (to_chunks_members_step encLen maxTokens)
    ⟨[], [], [], 0⟩
  if st.currentChunk.isEmpty then (st.chunks, st.tokens)
  else (st.chunks ++ [st.currentChunk], st.tokens ++ [st.currentTokens])

/-- Loop state of `naive_token_splitter` (lines 241-244): running token
total, emitted chunk texts, their token counts, and the running chunk. -/
structure NaiveState where
  totalTokens : Nat
  chunks : List String
  tokens : List Nat
  chunk : List String
deriving DecidableEq, Repr

/-- One iteration of the `for sentence, n_token in zip(sentences, n_tokens)`
loop of `naive_token_splitter` (lines 248-259): flush when the budget would
be exceeded and the running chunk is non-empty (joining with `". "` and
appending a final `"."`), skip sentences whose own count exceeds the budget,
otherwise append the sentence and add `n_token + 1` to the running total. -/
def naive_step (maxTokens : Nat) (st : NaiveState)
    (p : String × Nat) : NaiveState :=
  let st1 :=
    if maxTokens < st.totalTokens + p.2 ∧ st.chunk ≠ [] then
      { totalTokens := 0,
        chunks := st.chunks ++ [String.intercalate ". " st.chunk ++ "."],
        tokens := st.tokens ++ [st.totalTokens],
        chunk := [] }
    else st
  if maxTokens < p.2 then st1
  else { st1 with chunk := st1.chunk ++ [p.1],
                  totalTokens := st1.totalTokens + p.2 + 1 }

/-- `naive_token_splitter` (lines 216-266), up to the dataframe glue: split
the text, measure each sentence as `len(encoding.encode(" " + sentence))`,
fold the loop body, and return the `(chunks, tokens)` columns.  Note the
source has no flush after the loop: the final running chunk is discarded. -/
def naive_token_splitter (encLen : String → Nat) (text : String)
    (maxTokens minimalLength : Nat) : List String × List Nat :=
  let sentences := naive_split text minimalLength
  let n_tokens := sentences.map (fun s => encLen (" " ++ s))
  let st := (sentences.zip n_tokens).foldl (naive_step maxTokens) ⟨0, [], [], []⟩
  (st.chunks, st.tokens)

/-- Instrumented loop state for `naive_token_splitter`, recording emitted
chunks as member sentence lists. -/
structure NaiveStateM where
  totalTokens : Nat
  chunks : List (List String)
  tokens : List Nat
  chunk : List String
deriving DecidableEq, Repr

/-- Member-tracking version of `naive_step`. -/
def naive_members_step (maxTokens : Nat) (st : NaiveStateM)
    (p : String × Nat) : NaiveStateM :=
  let st1 :=
    if maxTokens < st.totalTokens + p.2 ∧ st.chunk ≠ [] then
      { totalTokens := 0,
        chunks := st.chunks ++ [st.chunk],
        tokens := st.tokens ++ [st.totalTokens],
        chunk := [] }
    else st
  if maxTokens < p.2 then st1
  else { st1 with chunk := st1.chunk ++ [p.1],
                  totalTokens := st1.totalTokens + p.2 + 1 }

/-- Member-tracking version of `naive_token_splitter`. -/
def naive_token_splitter_members (encLen : String → Nat) (text : String)
    (maxTokens minimalLength : Nat) : List (List String) × List Nat :=
  let sentences := naive_split text minimalLength
  let n_tokens := sentences.map (fun s => encLen (" " ++ s))
  let st := (sentences.zip n_tokens).foldl (naive_members_step maxTokens)
    ⟨0, [], [], []⟩
  (st.chunks, st.tokens)

/-- The `while end_idx < len(docs)` loop of `TextProcessor.group_by_semantics`
(lines 90-97), with `fuel = len(docs) - end_idx` encoding the while
condition (the loop increments `end_idx` by one each iteration).
`chunks.getD i ""` is `self.chunks[i]` / `docs[i].text` (every index reached
is in range, and the NLP parse round-trips a chunk's text).  Returns the pair
`(segments, segment)` at loop exit. -/
def group_loop (sim : String → String → ℚ) (θ : ℚ) (chunks : List String) :
    Nat → Nat → Nat → List String → List String → List String × List String
  | 0, _, _, segment, segments => (segments, segment)
  | fuel + 1, startIdx, endIdx, segment, segments =>
    if θ ≤ sim (chunks.getD startIdx "") (chunks.getD endIdx "") then
      group_loop sim θ chunks fuel startIdx (endIdx + 1)
        (segment ++ [chunks.getD endIdx ""]) segments
    else
      group_loop sim θ chunks fuel endIdx (endIdx + 1)
        [chunks.getD endIdx ""]
        (segments ++ [String.intercalate " " segment])

/-- `TextProcessor.group_by_semantics` (lines 85-101) on an already available
chunk list: on an empty list the initialization `segment = [self.chunks[0]]`
(line 89, via `start_idx = 0`) raises an `IndexError`; otherwise run the
while loop from `start_idx = 0`, `end_idx = 1`, and afterwards emit the last
segment if non-empty (`if segment:`). -/
def group_by_semantics (sim : String → String → ℚ) (θ : ℚ)
    (chunks : List String) : Except String (List String) :=
  match chunks with
  | [] => Except.error "IndexError: list index out of range"
  | c :: _ =>
    let r := group_loop sim θ chunks (chunks.length - 1) 0 1 [c] []
    Except.ok (if r.2.isEmpty then r.1
               else r.1 ++ [String.intercalate " " r.2])

/-- Modelled from the spec: the pivot-based grouping recursion in its own
words — compare each candidate chunk against the chunk that started the
current segment (the pivot); on similarity at least the threshold extend the
segment, otherwise close it and start a new segment whose pivot is the
candidate; the last segment is emitted at the end. -/
def group_pivot_spec (sim : String → String → ℚ) (θ : ℚ)
    (pivot : String) (segment : List String) : List String → List String
  | [] => [String.intercalate " " segment]
  | c :: rest =>
    if θ ≤ sim pivot c then
      group_pivot_spec sim θ pivot (segment ++ [c]) rest
    else
      String.intercalate " " segment :: group_pivot_spec sim θ c [c] rest

/-- Modelled from the spec: the semantic grouper as described — zero chunks
yield zero segments, otherwise the first chunk opens the first segment as
its pivot and the remaining chunks are processed by pivot comparison. -/
def group_by_semantics_spec (sim : String → String → ℚ) (θ : ℚ) :
    List String → List String
  | [] => []
  | c :: rest => group_pivot_spec sim θ c [c] rest

/-- A row of the pipeline dataframe handed to the embedding fetchers: the
chunk text (the column the fetchers read) and its token count.  Modelled
from the spec: the column names live in `genaikit.constants`
(`EMBEDDINGS_COLUMNS`), which is outside the provided source; the spec
describes the record as a (text, token_count) pair. -/
structure EmbRecord where
  text : String
  n_tokens : Nat
deriving DecidableEq, Repr

/-- The request loop of `TextProcessor.embeddings` (lines 143-152): iterate
the dataframe rows in order, appending each response vector to the
`embeddings` list.  `f` is the embedding service's (fixed) response for a
given input text. -/
def embeddings_rows {α : Type} (f : String → α) (rows : List EmbRecord) :
    List α :=
  rows.foldl (fun acc row => acc ++ [f row.text]) []

/-- The task fan-out of `TextProcessor.async_embeddings` (lines 180-192):
build one deferred request per row in order, then `asyncio.gather` awaits
them all and collects the results in task order. -/
def async_embeddings_rows {α : Type} (f : String → α)
    (rows : List EmbRecord) : List α :=
  let tasks := rows.foldl (fun ts row => ts ++ [fun _ : Unit => f row.text]) []
  tasks.map (fun t => t ())

/-- The dataframe produced by `TextProcessor.embeddings`: each input row
paired with the vector stored in its slot of the new embeddings column
(`self.dataframe[...] = embeddings`, line 154). -/
def embeddings_df {α : Type} (f : String → α) (rows : List EmbRecord) :
    List (EmbRecord × α) :=
  rows.zip (embeddings_rows f rows)

/-- The dataframe produced by `TextProcessor.async_embeddings` (line 192). -/
def async_embeddings_df {α : Type} (f : String → α) (rows : List EmbRecord) :
    List (EmbRecord × α) :=
  rows.zip (async_embeddings_rows f rows)

/-- The `TextProcessor` attributes that `group_by_semantics` and
`to_dataframe` read and write: `self.chunks`, `self.n_tokens`,
`self.segments`. -/
structure ProcessorState where
  chunks : List String
  n_tokens : List Nat
  segments : List String
deriving DecidableEq, Repr

/-- `TextProcessor.group_by_semantics` called with a list as `data`
(lines 70-77 then 85-101) as a transition on the processor state: token
counts are recomputed (as `len(encoding.encode(chunk))`) only when
`self.n_tokens` is empty, `self.chunks` is replaced by `data`, and the
segments are computed from the new chunks. -/
def group_by_semantics_list (sim : String → String → ℚ) (θ : ℚ)
    (encLen : String → Nat) (data : List String) (st : ProcessorState) :
    Except String ProcessorState :=
  let n_tokens :=
    if st.n_tokens.isEmpty then data.map (fun chunk => encLen chunk)
    else st.n_tokens
  let st1 : ProcessorState :=
    { chunks := data, n_tokens := n_tokens, segments := st.segments }
  match group_by_semantics sim θ st1.chunks with
  | Except.error e => Except.error e
  | Except.ok segs => Except.ok { st1 with segments := segs }

/-- `TextProcessor.to_dataframe` called with a list as `data`
(lines 103-125): run `group_by_semantics`, then build the dataframe from
`self.chunks` and `self.n_tokens` — pandas pairs the two columns row by row
and raises a `ValueError` when their lengths differ. -/
def to_dataframe_list (sim : String → String → ℚ) (θ : ℚ)
    (encLen : String → Nat) (data : List String) (st : ProcessorState) :
    Except String (ProcessorState × List (String × Nat)) :=
  match group_by_semantics_list sim θ encLen data st with
  | Except.error e => Except.error e
  | Except.ok st1 =>
    if st1.chunks.length = st1.n_tokens.length then
      Except.ok (st1, st1.chunks.zip st1.n_tokens)
    else Except.error "ValueError: All arrays must be of the same length"

/-! ### Generic helper lemmas -/

/-- A predicate preserved by every step of a left fold holds of the result. -/
theorem foldl_inv {σ α : Type} {P : σ → Prop} (g : σ → α → σ)
    (hstep : ∀ st a, P st → P (g st a)) :
    ∀ (l : List α) (st : σ), P st → P (l.foldl g st)
  | [], _, h => h
  | a :: l, st, h => foldl_inv g hstep l (g st a) (hstep st a h)

/-- Folding over a list zipped with its own image under `f` is folding over
the list with the pair built on the fly. -/
theorem foldl_zip_map {α β σ : Type} (g : σ → α × β → σ) (f : α → β) :
    ∀ (l : List α) (init : σ),
      (l.zip (l.map f)).foldl g init
        = l.foldl (fun st s => g st (s, f s)) init
  | [], _ => rfl
  | a :: l, init => by
    simp only [List.map_cons, List.zip_cons_cons, List.foldl_cons]
    exact foldl_zip_map g f l _

/-- If dropping `n` elements exposes `c`, then index `n` reads `c`. -/
theorem getD_of_drop_cons {α : Type} :
    ∀ (l : List α) (n : Nat) (c : α) (r : List α) (d : α),
      l.drop n = c :: r → l.getD n d = c
  | _, 0, _, _, _, h => by subst h; rfl
  | [], n + 1, _, _, _, h => by simp at h
  | _ :: xs, n + 1, c, r, d, h => getD_of_drop_cons xs n c r d h

/-- If dropping `n` elements exposes `c :: r`, dropping one more gives `r`. -/
theorem drop_succ_of_drop_cons {α : Type} :
    ∀ (l : List α) (n : Nat) (c : α) (r : List α),
      l.drop n = c :: r → l.drop (n + 1) = r
  | _ :: _, 0, _, _, h => by
    simp only [List.drop_zero] at h
    rw [h]
    simp
  | [], 0, _, _, h => by simp at h
  | [], n + 1, _, _, h => by simp at h
  | _ :: xs, n + 1, c, r, h => drop_succ_of_drop_cons xs n c r h

/-! ### Correspondence between the faithful and the member-tracking chunkers -/

/-- Collapse a member-tracking `to_chunks` state to the string-level state by
joining every recorded chunk with a single space. -/
def joinedChunkState (m : ChunkStateM) : ChunkState :=
  ⟨m.chunks.map (String.intercalate " "), m.tokens, m.currentChunk,
   m.currentTokens⟩

theorem to_chunks_step_joined (encLen : String → Nat) (maxTokens : Nat)
    (m : ChunkStateM) (s : String) :
    to_chunks_step encLen maxTokens (joinedChunkState m) s
      = joinedChunkState (to_chunks_members_step encLen maxTokens m s) := by
  unfold to_chunks_step to_chunks_members_step joinedChunkState
  dsimp only
  by_cases h : m.currentTokens + encLen (s ++ " ") ≤ maxTokens <;>
    simp [h, List.map_append]

theorem foldl_to_chunks_joined (encLen : String → Nat) (maxTokens : Nat) :
    ∀ (seqs : List String) (m : ChunkStateM),
      seqs.foldl (to_chunks_step encLen maxTokens) (joinedChunkState m)
        = joinedChunkState
            (seqs.foldl (to_chunks_members_step encLen maxTokens) m)
  | [], _ => rfl
  | s :: ss, m => by
    simp only [List.foldl_cons, to_chunks_step_joined]
    exact foldl_to_chunks_joined encLen maxTokens ss _

/-- The chunk texts returned by `to_chunks` are exactly the space-joins of
the member lists returned by `to_chunks_members`, with the same counts. -/
theorem to_chunks_members_join (encLen : String → Nat) (maxTokens : Nat)
    (sequences : List String) :
    to_chunks encLen maxTokens sequences
      = ((to_chunks_members encLen maxTokens sequences).1.map
           (String.intercalate " "),
         (to_chunks_members encLen maxTokens sequences).2) := by
  unfold to_chunks to_chunks_members
  have h0 : (⟨[], [], [], 0⟩ : ChunkState)
      = joinedChunkState ⟨[], [], [], 0⟩ := rfl
  rw [h0, foldl_to_chunks_joined]
  set m := sequences.foldl (to_chunks_members_step encLen maxTokens)
    ⟨[], [], [], 0⟩ with hm
  by_cases h : m.currentChunk.isEmpty <;>
    simp [joinedChunkState, h, List.map_append]

/-- Collapse a member-tracking `naive_token_splitter` state to the
string-level state by joining every recorded chunk with `". "` and appending
a final `"."`. -/
def joinedNaiveState (m : NaiveStateM) : NaiveState :=
  ⟨m.totalTokens,
   m.chunks.map (fun mem => String.intercalate ". " mem ++ "."),
   m.tokens, m.chunk⟩

theorem naive_step_joined (maxTokens : Nat) (m : NaiveStateM)
    (p : String × Nat) :
    naive_step maxTokens (joinedNaiveState m) p
      = joinedNaiveState (naive_members_step maxTokens m p) := by
  unfold naive_step naive_members_step joinedNaiveState
  dsimp only
  by_cases h1 : maxTokens < m.totalTokens + p.2 ∧ m.chunk ≠ [] <;>
    by_cases h2 : maxTokens < p.2 <;>
      simp [h1, h2, List.map_append]

theorem foldl_naive_joined (maxTokens : Nat) :
    ∀ (ps : List (String × Nat)) (m : NaiveStateM),
      ps.foldl (naive_step maxTokens) (joinedNaiveState m)
        = joinedNaiveState (ps.foldl (naive_members_step maxTokens) m)
  | [], _ => rfl
  | p :: ps, m => by
    simp only [List.foldl_cons, naive_step_joined]
    exact foldl_naive_joined maxTokens ps _

/-- The chunk texts returned by `naive_token_splitter` are exactly the
`". "`-joins (with trailing `"."`) of the member lists returned by
`naive_token_splitter_members`, with the same counts. -/
theorem naive_members_join (encLen : String → Nat) (text : String)
    (maxTokens minimalLength : Nat) :
    naive_token_splitter encLen text maxTokens minimalLength
      = ((naive_token_splitter_members encLen text maxTokens
            minimalLength).1.map
           (fun mem => String.intercalate ". " mem ++ "."),
         (naive_token_splitter_members encLen text maxTokens
            minimalLength).2) := by
  unfold naive_token_splitter naive_token_splitter_members
  dsimp only
  have h0 : (⟨0, [], [], []⟩ : NaiveState)
      = joinedNaiveState ⟨0, [], [], []⟩ := rfl
  rw [h0, foldl_naive_joined]
  simp [joinedNaiveState]

/-! ### Token accounting -/

/-- Sum of the member sentences' measured token counts as `to_chunks`
measures them: each sentence with its trailing space separator appended. -/
def sumTrail (encLen : String → Nat) (mem : List String) : Nat :=
  (mem.map (fun s => encLen (s ++ " "))).sum

/-- Sum over the member sentences of the measured token count (sentence with
a leading space prepended) plus the extra one token per sentence that
`naive_token_splitter` adds to its running total. -/
def sumLead (encLen : String → Nat) (mem : List String) : Nat :=
  (mem.map (fun s => encLen (" " ++ s) + 1)).sum

theorem to_chunks_members_step_sum (encLen : String → Nat) (maxTokens : Nat)
    (m : ChunkStateM) (s : String)
    (h : m.tokens = m.chunks.map (sumTrail encLen)
      ∧ m.currentTokens = sumTrail encLen m.currentChunk) :
    (to_chunks_members_step encLen maxTokens m s).tokens
        = (to_chunks_members_step encLen maxTokens m s).chunks.map
            (sumTrail encLen)
      ∧ (to_chunks_members_step encLen maxTokens m s).currentTokens
        = sumTrail encLen
            (to_chunks_members_step encLen maxTokens m s).currentChunk := by
  obtain ⟨h1, h2⟩ := h
  unfold to_chunks_members_step
  dsimp only
  by_cases hb : m.currentTokens + encLen (s ++ " ") ≤ maxTokens
  · rw [if_pos hb]
    exact ⟨h1, by simp [h2, sumTrail, List.map_append]⟩
  · rw [if_neg hb]
    constructor
    · simp [h1, h2, sumTrail, List.map_append]
    · simp [sumTrail]

/-- Every token count reported by `to_chunks` is the sum of the measured
counts of the chunk's member sentences. -/
theorem to_chunks_members_sum (encLen : String → Nat) (maxTokens : Nat)
    (sequences : List String) :
    (to_chunks_members encLen maxTokens sequences).2
      = (to_chunks_members encLen maxTokens sequences).1.map
          (sumTrail encLen) := by
  unfold to_chunks_members
  dsimp only
  have h := foldl_inv (P := fun m : ChunkStateM =>
      m.tokens = m.chunks.map (sumTrail encLen)
        ∧ m.currentTokens = sumTrail encLen m.currentChunk)
    (to_chunks_members_step encLen maxTokens)
    (fun st a hst => to_chunks_members_step_sum encLen maxTokens st a hst)
    sequences ⟨[], [], [], 0⟩ ⟨rfl, rfl⟩
  obtain ⟨h1, h2⟩ := h
  by_cases hc : (sequences.foldl (to_chunks_members_step encLen maxTokens)
      ⟨[], [], [], 0⟩).currentChunk.isEmpty <;>
    simp [hc, h1, h2, List.map_append]

theorem naive_members_step_sum (encLen : String → Nat) (maxTokens : Nat)
    (m : NaiveStateM) (s : String)
    (h : m.tokens = m.chunks.map (sumLead encLen)
      ∧ m.totalTokens = sumLead encLen m.chunk) :
    (naive_members_step maxTokens m (s, encLen (" " ++ s))).tokens
        = (naive_members_step maxTokens m (s, encLen (" " ++ s))).chunks.map
            (sumLead encLen)
      ∧ (naive_members_step maxTokens m (s, encLen (" " ++ s))).totalTokens
        = sumLead encLen
            (naive_members_step maxTokens m (s, encLen (" " ++ s))).chunk := by
  obtain ⟨h1, h2⟩ := h
  unfold naive_members_step
  dsimp only
  by_cases hf : maxTokens < m.totalTokens + encLen (" " ++ s) ∧ m.chunk ≠ []
  · rw [if_pos hf]
    by_cases hs : maxTokens < encLen (" " ++ s)
    · rw [if_pos hs]
      exact ⟨by simp [h1, h2, sumLead, List.map_append], by simp [sumLead]⟩
    · rw [if_neg hs]
      constructor
      · simp [h1, h2, sumLead, List.map_append]
      · simp [sumLead]
  · rw [if_neg hf]
    by_cases hs : maxTokens < encLen (" " ++ s)
    · rw [if_pos hs]
      exact ⟨h1, h2⟩
    · rw [if_neg hs]
      constructor
      · simp [h1, h2, sumLead, List.map_append]
      · simp [h2, sumLead, List.map_append]
        omega

/-- Every token count reported by `naive_token_splitter` is the sum over the
chunk's member sentences of the measured count plus one. -/
theorem naive_members_sum (encLen : String → Nat) (text : String)
    (maxTokens minimalLength : Nat) :
    (naive_token_splitter_members encLen text maxTokens minimalLength).2
      = (naive_token_splitter_members encLen text maxTokens
           minimalLength).1.map (sumLead encLen) := by
  unfold naive_token_splitter_members
  dsimp only
  rw [foldl_zip_map]
  have h := foldl_inv (P := fun m : NaiveStateM =>
      m.tokens = m.chunks.map (sumLead encLen)
        ∧ m.totalTokens = sumLead encLen m.chunk)
    (fun st s => naive_members_step maxTokens st (s, encLen (" " ++ s)))
    (fun st s hst => naive_members_step_sum encLen maxTokens st s hst)
    (naive_split text minimalLength) ⟨0, [], [], []⟩ ⟨rfl, rfl⟩
  exact h.1

/-! ### Budget bounds -/

theorem to_chunks_members_step_budget (encLen : String → Nat)
    (maxTokens : Nat) (m : ChunkStateM) (s : String)
    (h : m.chunks.length = m.tokens.length
      ∧ (∀ p ∈ m.chunks.zip m.tokens, maxTokens < p.2 →
          ∃ t, p.1 = [t] ∧ maxTokens < encLen (t ++ " "))
      ∧ (maxTokens < m.currentTokens →
          ∃ t, m.currentChunk = [t] ∧ maxTokens < encLen (t ++ " "))) :
    (to_chunks_members_step encLen maxTokens m s).chunks.length
        = (to_chunks_members_step encLen maxTokens m s).tokens.length
      ∧ (∀ p ∈ (to_chunks_members_step encLen maxTokens m s).chunks.zip
            (to_chunks_members_step encLen maxTokens m s).tokens,
          maxTokens < p.2 → ∃ t, p.1 = [t] ∧ maxTokens < encLen (t ++ " "))
      ∧ (maxTokens < (to_chunks_members_step encLen maxTokens m s).currentTokens →
          ∃ t, (to_chunks_members_step encLen maxTokens m s).currentChunk = [t]
            ∧ maxTokens < encLen (t ++ " ")) := by
  obtain ⟨h0, h1, h2⟩ := h
  unfold to_chunks_members_step
  dsimp only
  by_cases hb : m.currentTokens + encLen (s ++ " ") ≤ maxTokens
  · rw [if_pos hb]
    refine ⟨h0, h1, fun hgt => absurd hgt ?_⟩
    show ¬maxTokens < m.currentTokens + encLen (s ++ " ")
    omega
  · rw [if_neg hb]
    refine ⟨by simp [h0], ?_, ?_⟩
    · intro p hp hgt
      rw [List.zip_append h0] at hp
      rcases List.mem_append.mp hp with hmem | hmem
      · exact h1 p hmem hgt
      · have hp2 : p = (m.currentChunk, m.currentTokens) := by
          simpa using hmem
        subst hp2
        exact h2 hgt
    · intro hgt
      exact ⟨s, rfl, hgt⟩

/-- Every chunk of `to_chunks` whose reported count exceeds the budget is a
single sentence whose own measured count exceeds the budget. -/
theorem to_chunks_members_budget (encLen : String → Nat) (maxTokens : Nat)
    (sequences : List String) :
    ∀ p ∈ (to_chunks_members encLen maxTokens sequences).1.zip
        (to_chunks_members encLen maxTokens sequences).2,
      maxTokens < p.2 → ∃ t, p.1 = [t] ∧ maxTokens < encLen (t ++ " ") := by
  unfold to_chunks_members
  dsimp only
  have h := foldl_inv (P := fun m : ChunkStateM =>
      m.chunks.length = m.tokens.length
        ∧ (∀ p ∈ m.chunks.zip m.tokens, maxTokens < p.2 →
            ∃ t, p.1 = [t] ∧ maxTokens < encLen (t ++ " "))
        ∧ (maxTokens < m.currentTokens →
            ∃ t, m.currentChunk = [t] ∧ maxTokens < encLen (t ++ " ")))
    (to_chunks_members_step encLen maxTokens)
    (fun st a hst => to_chunks_members_step_budget encLen maxTokens st a hst)
    sequences ⟨[], [], [], 0⟩
    ⟨rfl, by simp, fun hgt => absurd hgt (by simp)⟩
  obtain ⟨h0, h1, h2⟩ := h
  by_cases hc : (sequences.foldl (to_chunks_members_step encLen maxTokens)
      ⟨[], [], [], 0⟩).currentChunk.isEmpty
  · rw [if_pos hc]
    exact h1
  · rw [if_neg hc]
    intro p hp hgt
    rw [List.zip_append h0] at hp
    rcases List.mem_append.mp hp with hmem | hmem
    · exact h1 p hmem hgt
    · have hp2 : p = ((sequences.foldl (to_chunks_members_step encLen maxTokens)
          ⟨[], [], [], 0⟩).currentChunk,
          (sequences.foldl (to_chunks_members_step encLen maxTokens)
            ⟨[], [], [], 0⟩).currentTokens) := by
        simpa using hmem
      subst hp2
      exact h2 hgt

theorem naive_step_budget (maxTokens : Nat) (st : NaiveState)
    (p : String × Nat)
    (h : st.totalTokens ≤ maxTokens + 1
      ∧ (∀ t ∈ st.tokens, t ≤ maxTokens + 1)
      ∧ (st.chunk = [] → st.totalTokens = 0)) :
    (naive_step maxTokens st p).totalTokens ≤ maxTokens + 1
      ∧ (∀ t ∈ (naive_step maxTokens st p).tokens, t ≤ maxTokens + 1)
      ∧ ((naive_step maxTokens st p).chunk = []
          → (naive_step maxTokens st p).totalTokens = 0) := by
  obtain ⟨h1, h2, h3⟩ := h
  unfold naive_step
  dsimp only
  by_cases hf : maxTokens < st.totalTokens + p.2 ∧ st.chunk ≠ []
  · rw [if_pos hf]
    by_cases hs : maxTokens < p.2
    · rw [if_pos hs]
      refine ⟨Nat.zero_le _, ?_, fun _ => rfl⟩
      intro t ht
      rcases List.mem_append.mp ht with hmem | hmem
      · exact h2 t hmem
      · simp only [List.mem_singleton] at hmem
        omega
    · rw [if_neg hs]
      refine ⟨?_, ?_, by simp⟩
      · show 0 + p.2 + 1 ≤ maxTokens + 1
        omega
      · intro t ht
        rcases List.mem_append.mp ht with hmem | hmem
        · exact h2 t hmem
        · simp only [List.mem_singleton] at hmem
          omega
  · rw [if_neg hf]
    by_cases hs : maxTokens < p.2
    · rw [if_pos hs]
      exact ⟨h1, h2, h3⟩
    · rw [if_neg hs]
      refine ⟨?_, h2, by simp⟩
      dsimp
      rcases Nat.lt_or_ge maxTokens (st.totalTokens + p.2) with hb | hb
      · have hchunk : st.chunk = [] := by
          by_contra hne
          exact hf ⟨hb, hne⟩
        have := h3 hchunk
        omega
      · omega

/-- Every token count reported by `naive_token_splitter` is at most the
budget plus one. -/
theorem naive_tokens_budget (encLen : String → Nat) (text : String)
    (maxTokens minimalLength : Nat) :
    ∀ t ∈ (naive_token_splitter encLen text maxTokens minimalLength).2,
      t ≤ maxTokens + 1 := by
  unfold naive_token_splitter
  dsimp only
  have h := foldl_inv (P := fun st : NaiveState =>
      st.totalTokens ≤ maxTokens + 1
        ∧ (∀ t ∈ st.tokens, t ≤ maxTokens + 1)
        ∧ (st.chunk = [] → st.totalTokens = 0))
    (naive_step maxTokens)
    (fun st p hst => naive_step_budget maxTokens st p hst)
    ((naive_split text minimalLength).zip
      ((naive_split text minimalLength).map (fun s => encLen (" " ++ s))))
    ⟨0, [], [], []⟩ ⟨by simp, by simp, fun _ => rfl⟩
  exact h.2.1

/-! ### The grouping loop follows the pivot recursion -/

theorem group_loop_pivot (sim : String → String → ℚ) (θ : ℚ)
    (chunks : List String) :
    ∀ (rest : List String) (startIdx endIdx : Nat)
      (segment segments : List String),
      chunks.drop endIdx = rest → segment ≠ [] →
      (if (group_loop sim θ chunks rest.length startIdx endIdx segment
            segments).2.isEmpty
       then (group_loop sim θ chunks rest.length startIdx endIdx segment
              segments).1
       else (group_loop sim θ chunks rest.length startIdx endIdx segment
              segments).1
         ++ [String.intercalate " "
              (group_loop sim θ chunks rest.length startIdx endIdx segment
                segments).2])
        = segments
          ++ group_pivot_spec sim θ (chunks.getD startIdx "") segment rest := by
  intro rest
  induction rest with
  | nil =>
    intro startIdx endIdx segment segments hdrop hne
    simp only [List.length_nil, group_loop, group_pivot_spec]
    rw [if_neg (by simpa using hne)]
  | cons c rest ih =>
    intro startIdx endIdx segment segments hdrop hne
    have hc : chunks.getD endIdx "" = c :=
      getD_of_drop_cons chunks endIdx c rest "" hdrop
    have hd : chunks.drop (endIdx + 1) = rest :=
      drop_succ_of_drop_cons chunks endIdx c rest hdrop
    simp only [List.length_cons, group_loop, group_pivot_spec, hc]
    by_cases hsim : θ ≤ sim (chunks.getD startIdx "") c
    · rw [if_pos hsim, if_pos hsim,
        ih startIdx (endIdx + 1) (segment ++ [c]) segments hd (by simp)]
    · rw [if_neg hsim, if_neg hsim,
        ih endIdx (endIdx + 1) [c]
          (segments ++ [String.intercalate " " segment]) hd (by simp)]
      simp only [hc]
      simp [List.append_assoc]

/-! ### Embedding fetch helpers -/

theorem foldl_append_map {α β : Type} (f : α → β) :
    ∀ (l : List α) (acc : List β),
      l.foldl (fun a r => a ++ [f r]) acc = acc ++ l.map f
  | [], acc => by simp
  | a :: l, acc => by
    simp only [List.foldl_cons, List.map_cons]
    rw [foldl_append_map f l (acc ++ [f a])]
    simp

theorem embeddings_rows_eq_map {α : Type} (f : String → α)
    (rows : List EmbRecord) :
    embeddings_rows f rows = rows.map (fun r => f r.text) := by
  unfold embeddings_rows
  simpa using foldl_append_map (fun r : EmbRecord => f r.text) rows []

theorem async_embeddings_rows_eq_map {α : Type} (f : String → α)
    (rows : List EmbRecord) :
    async_embeddings_rows f rows = rows.map (fun r => f r.text) := by
  unfold async_embeddings_rows
  dsimp only
  rw [foldl_append_map (fun r : EmbRecord => (fun _ : Unit => f r.text)) rows []]
  simp [List.map_map, Function.comp]

theorem zip_map_self {α β : Type} (g : α → β) :
    ∀ l : List α, l.zip (l.map g) = l.map (fun a => (a, g a))
  | [] => rfl
  | a :: l => by simp [zip_map_self g l]

/-! ### Fixtures for the concrete instantiations below -/

/-- A constant similarity oracle used to instantiate grouping theorems. -/
def simZero : String → String → ℚ := fun _ _ => 0

/-- A processor state with a non-empty, stale `n_tokens` attribute. -/
def pSt : ProcessorState := ⟨["old"], [99], []⟩

/-- The state `pSt` becomes after `group_by_semantics` over `["x"]`. -/
def pSt1 : ProcessorState := ⟨["x"], [99], ["x"]⟩

/-! ### Claims -/

/-- C1 (counterexample): at character-count tokenization, text
`"aa. bb. cc"` and budget 7, `naive_token_splitter` emits the chunk
`["aa", "bb"]` with reported count 8, but the sum of the two measured
counts (`len(" aa")` and `len(" bb")`) is 6 — the reported count is not the
sum of the members' individually measured token counts. -/
theorem tokens_not_sum_counterexample :
    naive_token_splitter_members String.length "aa. bb. cc" 7 0
      = ([["aa", "bb"]], [8])
    ∧ (["aa", "bb"].map (fun s => String.length (" " ++ s))).sum = 6
    ∧ (8 : Nat) ≠ 6 :=
  ⟨rfl, rfl, by decide⟩

/-- C1 (amended): for every tokenizer, budget and sentence sequence,
`to_chunks` reports each chunk's count as the sum of its members' measured
counts (each sentence measured with a trailing space appended), while
`naive_token_splitter` reports each chunk's count as the sum over its
members of the measured count (sentence with a leading space prepended)
plus one extra token per member sentence. -/
theorem chunk_tokens_sum (encLen : String → Nat) (maxTokens : Nat)
    (sequences : List String) (text : String) (minimalLength : Nat) :
    to_chunks encLen maxTokens sequences
      = ((to_chunks_members encLen maxTokens sequences).1.map
           (String.intercalate " "),
         (to_chunks_members encLen maxTokens sequences).1.map
           (sumTrail encLen))
    ∧ naive_token_splitter encLen text maxTokens minimalLength
      = ((naive_token_splitter_members encLen text maxTokens
            minimalLength).1.map
           (fun mem => String.intercalate ". " mem ++ "."),
         (naive_token_splitter_members encLen text maxTokens
            minimalLength).1.map (sumLead encLen)) := by
  constructor
  · rw [to_chunks_members_join, to_chunks_members_sum]
  · rw [naive_members_join, naive_members_sum]

/-- C2 (code bug): at character-count tokenization, text `"aa"`, budget 500
and minimal length 0, the loop of `naive_token_splitter` ends with the
non-empty running chunk `["aa"]` (running total 4), yet the function
returns zero chunks: the source has no post-loop flush, so the final
running chunk is silently dropped (`TextProcessor.to_chunks` does flush). -/
theorem naive_drops_final_chunk :
    naive_token_splitter String.length "aa" 500 0 = ([], [])
    ∧ ((naive_split "aa" 0).zip
        ((naive_split "aa" 0).map (fun s => String.length (" " ++ s)))).foldl
        (naive_step 500) ⟨0, [], [], []⟩
      = ⟨4, [], [], ["aa"]⟩ :=
  ⟨rfl, rfl⟩

/-- C3 (counterexample): at character-count tokenization, text
`"aa. bb. cc"` and budget 7, `naive_token_splitter` emits a chunk with two
member sentences whose reported count 8 exceeds the budget — refuting both
that an over-budget chunk is a single oversized sentence and that a chunk
with two or more sentences stays within the budget. -/
theorem budget_counterexample :
    naive_token_splitter_members String.length "aa. bb. cc" 7 0
      = ([["aa", "bb"]], [8])
    ∧ (["aa", "bb"] : List String).length = 2
    ∧ ¬(8 : Nat) ≤ 7 :=
  ⟨rfl, rfl, by decide⟩

/-- C3 (amended): for `to_chunks`, every chunk whose reported count exceeds
the budget is a single sentence whose own measured count exceeds the
budget, so every chunk with two or more sentences is within budget; for
`naive_token_splitter`, every reported count is at most the budget plus
one (the loop adds one separator token per sentence after checking the
budget, and skips sentences whose own measured count exceeds it). -/
theorem chunk_budget (encLen : String → Nat) (maxTokens : Nat)
    (sequences : List String) (text : String) (minimalLength : Nat) :
    (∀ p ∈ (to_chunks_members encLen maxTokens sequences).1.zip
        (to_chunks_members encLen maxTokens sequences).2,
      maxTokens < p.2 → ∃ t, p.1 = [t] ∧ maxTokens < encLen (t ++ " "))
    ∧ (∀ p ∈ (to_chunks_members encLen maxTokens sequences).1.zip
        (to_chunks_members encLen maxTokens sequences).2,
      2 ≤ p.1.length → p.2 ≤ maxTokens)
    ∧ (∀ t ∈ (naive_token_splitter encLen text maxTokens minimalLength).2,
      t ≤ maxTokens + 1) := by
  refine ⟨to_chunks_members_budget encLen maxTokens sequences, ?_,
    naive_tokens_budget encLen text maxTokens minimalLength⟩
  intro p hp hlen
  by_contra hgt
  push_neg at hgt
  obtain ⟨t, ht, _⟩ :=
    to_chunks_members_budget encLen maxTokens sequences p hp hgt
  rw [ht] at hlen
  simp at hlen

/-- Witness for `chunk_budget` at concrete inputs: the oversized chunk of
`to_chunks String.length 3 ["aaaa"]` is the singleton `["aaaa"]`, and the
over-budget count 8 of `naive_token_splitter` at budget 7 is within 7+1. -/
theorem chunk_budget_witness :
    (∃ t, (["aaaa"] : List String) = [t] ∧ 3 < String.length (t ++ " "))
    ∧ (8 : Nat) ≤ 7 + 1 :=
  ⟨(chunk_budget String.length 3 ["aaaa"] "x" 0).1 (["aaaa"], 5)
      (by decide) (by decide),
   (chunk_budget String.length 7 [] "aa. bb. cc" 0).2.2 8 (by decide)⟩

/-- C4 (code bug): at character-count tokenization, sentence list
`["aaaa"]` and budget 3, the first sentence is oversized, so the `else`
branch of `to_chunks` fires with an empty running chunk and emits the
empty chunk `""` (member list `[]`) with token count 0 before the oversized
sentence's own chunk. -/
theorem to_chunks_emits_empty_chunk :
    to_chunks String.length 3 ["aaaa"] = (["", "aaaa"], [0, 5])
    ∧ to_chunks_members String.length 3 ["aaaa"] = ([[], ["aaaa"]], [0, 5]) :=
  ⟨rfl, rfl⟩

/-- C5 (code bug): on zero chunks `group_by_semantics` evaluates
`self.chunks[0]` and raises an `IndexError` instead of returning zero
segments; on exactly one chunk it returns that chunk as the single segment
(the while loop body never runs). -/
theorem group_by_semantics_empty_raises :
    group_by_semantics simZero 1 []
      = Except.error "IndexError: list index out of range"
    ∧ group_by_semantics simZero 1 ["a"] = Except.ok ["a"] :=
  ⟨rfl, rfl⟩

/-- C6: on any non-empty chunk list, `group_by_semantics` computes exactly
the pivot-based grouping described by the spec: every comparison is between
the chunk that opened the current segment and the candidate, a candidate
joins the segment exactly when its similarity to that pivot is at least the
threshold, and otherwise it opens a new segment and becomes the new pivot.
The similarity oracle and threshold are universally quantified, so no
comparison against the immediately preceding chunk can influence the
result. -/
theorem group_by_semantics_pivot (sim : String → String → ℚ) (θ : ℚ)
    (c : String) (cs : List String) :
    group_by_semantics sim θ (c :: cs)
      = Except.ok (group_by_semantics_spec sim θ (c :: cs)) := by
  unfold group_by_semantics group_by_semantics_spec
  dsimp only
  have hlen : (c :: cs).length - 1 = cs.length := by simp
  rw [hlen]
  have h := group_loop_pivot sim θ (c :: cs) cs 0 1 [c] [] (by simp) (by simp)
  simp only [List.getD_cons_zero, List.nil_append] at h
  exact congrArg Except.ok h

/-- C7: with the embedding service's responses fixed as a function of the
request text, the sequential fetcher and the concurrent fetcher produce the
same dataframe — the input rows in order, each paired with the vector the
service returns for that row's text. -/
theorem embeddings_modes_agree {α : Type} (f : String → α)
    (rows : List EmbRecord) :
    async_embeddings_df f rows = embeddings_df f rows
    ∧ embeddings_df f rows = rows.map (fun r => (r, f r.text)) := by
  constructor
  · unfold async_embeddings_df embeddings_df
    rw [async_embeddings_rows_eq_map, embeddings_rows_eq_map]
  · unfold embeddings_df
    rw [embeddings_rows_eq_map, zip_map_self]

/-- C9 (counterexample): at character-count tokenization, text
`"aa. bb. cc"` and budget 7, the chunk emitted by `naive_token_splitter`
has members `["aa", "bb"]` but text `"aa. bb."` — joined by `". "` with a
trailing `"."`, not by a single space (`"aa bb"`). -/
theorem join_counterexample :
    naive_token_splitter String.length "aa. bb. cc" 7 0 = (["aa. bb."], [8])
    ∧ naive_token_splitter_members String.length "aa. bb. cc" 7 0
      = ([["aa", "bb"]], [8])
    ∧ String.intercalate " " ["aa", "bb"] = "aa bb"
    ∧ ("aa bb" : String) ≠ "aa. bb." :=
  ⟨rfl, rfl, rfl, by decide⟩

/-- C9 (amended): every chunk text of `to_chunks` is its member sentences
joined by a single space; every chunk text of `naive_token_splitter` is its
member sentences joined by `". "` with a final `"."` appended. -/
theorem chunk_join (encLen : String → Nat) (maxTokens : Nat)
    (sequences : List String) (text : String) (minimalLength : Nat) :
    (to_chunks encLen maxTokens sequences).1
      = (to_chunks_members encLen maxTokens sequences).1.map
          (String.intercalate " ")
    ∧ (naive_token_splitter encLen text maxTokens minimalLength).1
      = (naive_token_splitter_members encLen text maxTokens
           minimalLength).1.map
          (fun mem => String.intercalate ". " mem ++ ".") := by
  constructor
  · rw [to_chunks_members_join]
  · rw [naive_members_join]

/-- C10: when `group_by_semantics` is called with a chunk list while the
processor's `n_tokens` attribute is non-empty, the stale counts are kept
unchanged (never recomputed for the new chunks), the chunks are replaced by
the new list, and `to_dataframe` pairs the new chunks row by row with the
stale counts. -/
theorem stale_n_tokens (sim : String → String → ℚ) (θ : ℚ)
    (encLen : String → Nat) (data : List String) (st st1 : ProcessorState)
    (rows : List (String × Nat))
    (h : st.n_tokens ≠ [])
    (h2 : to_dataframe_list sim θ encLen data st = Except.ok (st1, rows)) :
    st1.n_tokens = st.n_tokens ∧ st1.chunks = data
      ∧ rows = data.zip st.n_tokens := by
  unfold to_dataframe_list group_by_semantics_list at h2
  dsimp only at h2
  rw [if_neg (by simpa using h)] at h2
  rcases hgb : group_by_semantics sim θ data with e | segs <;>
    rw [hgb] at h2 <;> dsimp only at h2
  · exact absurd h2 (by simp)
  · split at h2
    · simp only [Except.ok.injEq, Prod.mk.injEq] at h2
      obtain ⟨h5, h6⟩ := h2
      subst h5
      exact ⟨rfl, rfl, h6.symm⟩
    · exact absurd h2 (by simp)

/-- Witness for `stale_n_tokens`: with stale count list `[99]` and new
chunk list `["x"]`, the dataframe row pairs `"x"` with the stale 99, which
is not the token count of `"x"` under the (character-count) tokenizer. -/
theorem stale_n_tokens_witness :
    (pSt1.n_tokens = pSt.n_tokens ∧ pSt1.chunks = ["x"]
      ∧ [("x", 99)] = ["x"].zip pSt.n_tokens)
    ∧ String.length "x" ≠ 99 :=
  ⟨stale_n_tokens simZero 1 String.length ["x"] pSt pSt1 [("x", 99)]
      (by decide) (by rfl),
   by decide⟩

end Genaikit
